import Mathlib

/-!
Shallow embedding of the view.tree LSP server's parsing and indexing
subsystem (Go sources: the structural parser `ViewTreeParser`, the workspace
scanner `ProjectScanner`, the server's text-edit plumbing, and the node
classifiers of the hover and definition providers), together with theorems
settling the specification's claims about them.

Go strings are modelled as `List Char` (the sources only ever index and
slice ASCII content, where Go's byte indexing and character indexing agree);
the public entry points take a Lean `String` and work on its character list.
Go's `map` types are modelled as association lists / key lists; the scanner
only ever stores the value `true`, so a map `map[string]bool` is a key set.
-/

namespace ViewTree

/-- `unicode.IsSpace` restricted to Latin-1 (the alphabet handled by
`strings.TrimSpace` and `strings.Fields` on the inputs in scope):
tab, newline, vertical tab, form feed, carriage return, space,
next-line U+0085 and no-break space U+00A0. -/
def isGoSpace (c : Char) : Bool :=
  c = ' ' || c = '\t' || c = '\n' || (c = Char.ofNat 11) || (c = Char.ofNat 12) ||
  c = '\r' || (c = Char.ofNat 133) || (c = Char.ofNat 160)

/-- Go's `regexp` character class `\s` = `[\t\n\f\r ]`. -/
def isRegexSpace (c : Char) : Bool :=
  c = '\t' || c = '\n' || (c = Char.ofNat 12) || c = '\r' || c = ' '

/-- `ViewTreeParser.isWordCharacter` (identical to
`DefinitionProvider.isWordCharacter`): ASCII letters, digits, `_`, `$`, `?`, `*`. -/
def isWordChar (c : Char) : Bool :=
  (('a' ≤ c && c ≤ 'z') || ('A' ≤ c && c ≤ 'Z') || ('0' ≤ c && c ≤ '9') ||
   c = '_' || c = '$' || c = '?' || c = '*')

/-- Go's `regexp` class `\w` = `[0-9A-Za-z_]`. -/
def isRegexWord (c : Char) : Bool :=
  ('a' ≤ c && c ≤ 'z') || ('A' ≤ c && c ≤ 'Z') || ('0' ≤ c && c ≤ '9') || c = '_'

/-- Character class `[a-zA-Z_$]` (first character of the parser's property regex). -/
def isIdentFirstDollar (c : Char) : Bool :=
  ('a' ≤ c && c ≤ 'z') || ('A' ≤ c && c ≤ 'Z') || c = '_' || c = '$'

/-- Character class `[a-zA-Z_]` (first character of the binding-value regexes). -/
def isIdentFirst (c : Char) : Bool :=
  ('a' ≤ c && c ≤ 'z') || ('A' ≤ c && c ≤ 'Z') || c = '_'

/-- Character class `[a-zA-Z0-9_?*]` (identifier continuation in every regex here). -/
def isIdentCont (c : Char) : Bool :=
  ('a' ≤ c && c ≤ 'z') || ('A' ≤ c && c ≤ 'Z') || ('0' ≤ c && c ≤ '9') ||
  c = '_' || c = '?' || c = '*'

/-- `strings.Split(s, sep)` for a one-character separator: always returns at
least one (possibly empty) piece. -/
def splitOnChar (sep : Char) : List Char → List (List Char)
  | [] => [[]]
  | c :: cs =>
      match splitOnChar sep cs with
      | [] => [[]]
      | r :: rs => if c = sep then [] :: r :: rs else (c :: r) :: rs

/-- `strings.TrimSpace`, left half: drop leading Unicode space. -/
def goTrimLeft (l : List Char) : List Char := l.dropWhile isGoSpace

/-- `strings.TrimSpace`, right half: drop trailing Unicode space. -/
def goTrimRight (l : List Char) : List Char := (l.reverse.dropWhile isGoSpace).reverse

/-- `strings.TrimSpace`. -/
def goTrimSpace (l : List Char) : List Char := goTrimRight (goTrimLeft l)

/-- `strings.Fields`: the maximal runs of non-space characters. -/
def goFields (l : List Char) : List (List Char) :=
  (l.foldr
    (fun c acc =>
      if isGoSpace c then ([] : List Char) :: acc
      else
        match acc with
        | [] => [[c]]
        | w :: ws => (c :: w) :: ws)
    []).filter (fun w => !w.isEmpty)

/-- `strings.Index(hay, nee)` as an option: the first index where `nee`
occurs in `hay` (Go returns -1 when absent; every call site below looks up a
needle that does occur, so the defaulted `goIndex` is exact there). -/
def subIndexNat (hay nee : List Char) : Option Nat :=
  if nee.isPrefixOf hay then some 0
  else
    match hay with
    | [] => none
    | _ :: t => (subIndexNat t nee).map (· + 1)

/-- `strings.Index`, defaulted (see `subIndexNat`). -/
def goIndex (hay nee : List Char) : Nat := (subIndexNat hay nee).getD 0

/-- `strings.Contains`. -/
def goContains (s sub : List Char) : Bool := (subIndexNat s sub).isSome

/-- LSP `Position` (Go `Position{Line, Character int}`; the sources only ever
produce non-negative values, so `Nat` is used). -/
structure Position where
  line : Nat
  character : Nat
deriving DecidableEq, Repr

/-- LSP `Range` (Go `Range{Start, End Position}`; `end` is a Lean keyword, so
the fields are `startPos`/`endPos`). -/
structure Range where
  startPos : Position
  endPos : Position
deriving DecidableEq, Repr

/-- Go `ParsedProperty`. -/
structure ParsedProperty where
  name : String
  range : Range
  line : Nat
  indentLevel : Nat
  isBinding : Bool
  bindingType : String
  value : String
deriving DecidableEq, Repr

/-- Go `ParsedComponent`. -/
structure ParsedComponent where
  name : String
  range : Range
  properties : List ParsedProperty
  startLine : Nat
  endLine : Nat
deriving DecidableEq, Repr

/-- Go `ParsedNode`. -/
structure ParsedNode where
  type : String
  name : String
  range : Range
  line : Nat
  indentLevel : Nat
deriving DecidableEq, Repr

/-- Go `ParseError`. -/
structure ParseError where
  message : String
  range : Range
  severity : String
deriving DecidableEq, Repr

/-- Go `ParseResult`. -/
structure ParseResult where
  components : List ParsedComponent
  nodes : List ParsedNode
  errors : List ParseError
deriving DecidableEq, Repr

/-- `ViewTreeParser.getIndentLevel`: counts characters while they are tabs
and stops at the first character that is not a tab (the Go loop `break`s on
anything else, so a space terminates the count). -/
def getIndentLevel : List Char → Nat
  | [] => 0
  | c :: cs => if c = '\t' then getIndentLevel cs + 1 else 0

/-- `ViewTreeParser.getWordRange`. -/
def getWordRange (line start : Nat) (word : List Char) : Range :=
  ⟨⟨line, start⟩, ⟨line, start + word.length⟩⟩

/-- One position of the search for Go pattern `op ++ "\s+\w+\s+(\$\w+)"`:
does the pattern match starting exactly here?  Greedy `\s+`/`\w+` runs are
maximal because the classes `\s`, `\w` and the literals that follow them are
disjoint, so the backtracking regex is equivalent to this direct scan. -/
def compRefAt (op : List Char) (s : List Char) : Option (List Char) :=
  if op.isPrefixOf s then
    let r1 := s.drop op.length
    let ws1 := r1.takeWhile isRegexSpace
    if ws1.isEmpty then none
    else
      let r2 := r1.dropWhile isRegexSpace
      let w1 := r2.takeWhile isRegexWord
      if w1.isEmpty then none
      else
        let r3 := r2.dropWhile isRegexWord
        let ws2 := r3.takeWhile isRegexSpace
        if ws2.isEmpty then none
        else
          match r3.dropWhile isRegexSpace with
          | '$' :: rest =>
              let w2 := rest.takeWhile isRegexWord
              if w2.isEmpty then none else some ('$' :: w2)
          | _ => none
  else none

/-- Leftmost match of `op ++ "\s+\w+\s+(\$\w+)"` (the submatch group),
as `regexp.FindStringSubmatch` computes it. -/
def findCompRef (op : List Char) : List Char → Option (List Char)
  | [] => none
  | c :: cs =>
      match compRefAt op (c :: cs) with
      | some r => some r
      | none => findCompRef op cs

/-- `ViewTreeParser.extractComponentReference`: tries the three binding
patterns in order on the trimmed line; `[]` plays Go's `""` (no reference). -/
def extractComponentReference (line : List Char) : List Char :=
  let trimmed := goTrimSpace line
  match findCompRef ['<', '='] trimmed with
  | some r => r
  | none =>
      match findCompRef ['=', '>'] trimmed with
      | some r => r
      | none =>
          match findCompRef ['<', '=', '>'] trimmed with
          | some r => r
          | none => []

/-- The parser's property regex `^(\s+)([a-zA-Z_$][a-zA-Z0-9_?*]*)` applied
to the whole line: some leading whitespace, then the identifier (group 2). -/
def propMatchLine (line : List Char) : Option (List Char) :=
  let ws := line.takeWhile isRegexSpace
  if ws.isEmpty then none
  else
    match line.dropWhile isRegexSpace with
    | c :: cs => if isIdentFirstDollar c then some (c :: cs.takeWhile isIdentCont) else none
    | [] => none

/-- The `<=\s*([a-zA-Z_][a-zA-Z0-9_?*]*)` alternative of the parser's
binding-value regex, tried at one position. -/
def bindingValAlt2 (s : List Char) : Option (Bool × List Char) :=
  if ['<', '='].isPrefixOf s then
    match (s.drop 2).dropWhile isRegexSpace with
    | c :: cs =>
        if isIdentFirst c then some (false, c :: cs.takeWhile isIdentCont) else none
    | [] => none
  else none

/-- One position of the search for the parser's binding-value regex
`<=>\s*([a-zA-Z_][a-zA-Z0-9_?*]*)|<=\s*([a-zA-Z_][a-zA-Z0-9_?*]*)`:
Go regexes use leftmost-first semantics, so at each position the `<=>`
alternative is tried before the `<=` one.  The returned flag is true when
the first alternative (group 1) matched. -/
def bindingValAt (s : List Char) : Option (Bool × List Char) :=
  if ['<', '=', '>'].isPrefixOf s then
    match (s.drop 3).dropWhile isRegexSpace with
    | c :: cs =>
        if isIdentFirst c then some (true, c :: cs.takeWhile isIdentCont)
        else bindingValAlt2 s
    | [] => bindingValAlt2 s
  else bindingValAlt2 s

/-- Leftmost match of the binding-value regex (see `bindingValAt`). -/
def findBindingVal : List Char → Option (Bool × List Char)
  | [] => none
  | c :: cs =>
      match bindingValAt (c :: cs) with
      | some r => some r
      | none => findBindingVal cs

/-- The parser's literal-value regex `^[a-zA-Z_$][a-zA-Z0-9_?*]*\s+(.+)$` on
the trimmed line.  `\s+` is greedy but gives one space back to `(.+)` when
everything after the identifier is whitespace (`.` matches a space); the
group is therefore the text after the maximal space run, or the last space
when only whitespace follows and there are at least two such characters. -/
def valueAfterName (t : List Char) : Option (List Char) :=
  match t with
  | [] => none
  | c :: cs =>
      if isIdentFirstDollar c then
        let rest := cs.dropWhile isIdentCont
        let ws := rest.takeWhile isRegexSpace
        if ws.isEmpty then none
        else
          let tail := rest.dropWhile isRegexSpace
          if tail.isEmpty then
            if rest.length ≥ 2 then some [rest.getLast?.getD ' '] else none
          else some tail
      else none

/-- The mutable locals of `ViewTreeParser.Parse`'s loop.  Go's
`componentStack` is a `map[int]*ParsedComponent`; its level-0 slot always
aliases `rootComponent` (it is written exactly when a root component is
opened), so the state keeps the root separately (`root`) and the strictly
positive levels in an association list (`nested`).  Nested entries are
created in the `indentLevel > 0` branch only, hence never at level 0. -/
structure ParseState where
  root : Option ParsedComponent
  nested : List (Nat × ParsedComponent)
  components : List ParsedComponent
  nodes : List ParsedNode
  errors : List ParseError
deriving Repr

/-- `componentStack[level] = comp` for a strictly positive level (Go map
write = replace-or-insert). -/
def nestedSet (lvl : Nat) (comp : ParsedComponent) (l : List (Nat × ParsedComponent)) :
    List (Nat × ParsedComponent) :=
  (lvl, comp) :: l.filter (fun p => !(p.1 = lvl : Bool))

/-- `componentStack[level]` lookup for a strictly positive level. -/
def nestedGet (l : List (Nat × ParsedComponent)) (lvl : Nat) : Option ParsedComponent :=
  (l.find? (fun p => (p.1 = lvl : Bool))).map (·.2)

/-- The loop `for level := indentLevel; level >= 0; level--` that finds the
innermost open component: the greatest present stack level `≤ indentLevel`
(level 0 is the root).  Returns the level, `none` when no component is open. -/
def findOwner (st : ParseState) : Nat → Option Nat
  | 0 => if st.root.isSome then some 0 else none
  | l + 1 =>
      if (nestedGet st.nested (l + 1)).isSome then some (l + 1) else findOwner st l

/-- `currentComponent.Properties = append(...)` through the stack pointer:
the component at `lvl` (0 = root) gets the property appended. -/
def addPropAt (st : ParseState) (lvl : Nat) (p : ParsedProperty) : ParseState :=
  if lvl = 0 then
    { st with root := st.root.map (fun r => { r with properties := r.properties ++ [p] }) }
  else
    { st with
      nested := st.nested.map (fun q =>
        if q.1 = lvl then (q.1, { q.2 with properties := q.2.properties ++ [p] }) else q) }

/-- The `indentLevel == 0 && strings.HasPrefix(trimmed, "$")` branch of
`Parse`'s loop body: close the previous root component (Go:
`EndLine = lineIndex - 1`, then append a copy), clear the stack, and open
the new root.  The `goFields trimmed = []` case is unreachable (`trimmed`
starts with `$`, so it has a field); Go `continue`s there with
`rootComponent` still aliasing the closed component. -/
def parseStepRoot (st : ParseState) (lineIndex : Nat) (line trimmed : List Char) :
    ParseState :=
  let st1 :=
    match st.root with
    | some r =>
        { st with
          components := st.components ++ [{ r with endLine := lineIndex - 1 }],
          nested := [] }
    | none => { st with nested := [] }
  match goFields trimmed with
  | [] => st1
  | firstWord :: _ =>
      let wordRange := getWordRange lineIndex (goIndex line firstWord) firstWord
      let nodeType :=
        if lineIndex = 0 && wordRange.startPos.character = 1 then "root_class"
        else "class"
      { st1 with
        root := some
          { name := String.mk firstWord, range := wordRange, properties := [],
            startLine := lineIndex, endLine := lineIndex },
        nodes := st1.nodes ++
          [{ type := nodeType, name := String.mk firstWord, range := wordRange,
             line := lineIndex, indentLevel := 0 }] }

/-- The `indentLevel > 0` branch of `Parse`'s loop body. -/
def parseStepIndent (st : ParseState) (lineIndex : Nat) (line trimmed : List Char)
    (indentLevel : Nat) : ParseState :=
  let componentRef := extractComponentReference line
  let st1 :=
    if componentRef.isEmpty then st
    else
      let wr := getWordRange lineIndex (goIndex line componentRef) componentRef
      { st with
        nested := nestedSet indentLevel
          { name := String.mk componentRef, range := wr, properties := [],
            startLine := lineIndex, endLine := lineIndex } st.nested }
  match findOwner st1 indentLevel with
  | some lvl =>
      match propMatchLine line with
      | some propertyName =>
          if propertyName.isEmpty then st1
          else
            let wordRange :=
              getWordRange lineIndex (goIndex line propertyName) propertyName
            let isBinding :=
              goContains trimmed ['<', '='] || goContains trimmed ['<', '=', '>']
            let bindingType :=
              if isBinding then
                if goContains trimmed ['<', '=', '>'] then "two-way"
                else if goContains trimmed ['<', '='] then "one-way"
                else ""
              else if goContains trimmed ['^'] then "override"
              else ""
            let value :=
              if isBinding then
                match findBindingVal trimmed with
                | some (_, g) => String.mk g
                | none => ""
              else if goContains trimmed ['^'] then ""
              else
                match valueAfterName trimmed with
                | some v => String.mk (goTrimSpace v)
                | none => ""
            let property : ParsedProperty :=
              { name := String.mk propertyName, range := wordRange,
                line := lineIndex, indentLevel := indentLevel,
                isBinding := isBinding, bindingType := bindingType,
                value := value }
            let st2 := addPropAt st1 lvl property
            let nodeType :=
              if ['$'].isPrefixOf propertyName then "comp"
              else if indentLevel = 1 then "prop"
              else "sub_prop"
            { st2 with
              nodes := st2.nodes ++
                [{ type := nodeType, name := String.mk propertyName,
                   range := wordRange, line := lineIndex,
                   indentLevel := indentLevel }] }
      | none => st1
  | none =>
      if 0 < indentLevel then
        { st1 with
          errors := st1.errors ++
            [{ message := "Property defined outside of component",
               range := ⟨⟨lineIndex, 0⟩, ⟨lineIndex, line.length⟩⟩,
               severity := "error" }] }
      else st1

/-- The body of `ViewTreeParser.Parse`'s `for lineIndex, line := range vtp.lines`. -/
def parseStep (st : ParseState) (lineIndex : Nat) (line : List Char) : ParseState :=
  if line.isEmpty then st
  else
    let trimmed := goTrimSpace line
    if trimmed.isEmpty || ['/', '/'].isPrefixOf trimmed then st
    else
      let indentLevel := getIndentLevel line
      if indentLevel = 0 && ['$'].isPrefixOf trimmed then
        parseStepRoot st lineIndex line trimmed
      else if 0 < indentLevel then
        parseStepIndent st lineIndex line trimmed indentLevel
      else st

/-- The loop over `vtp.lines` with its running index. -/
def parseLoop (st : ParseState) (i : Nat) : List (List Char) → ParseState
  | [] => st
  | l :: ls => parseLoop (parseStep st i l) (i + 1) ls

/-- The tail of `Parse`: flush the last open root component with
`EndLine = len(vtp.lines) - 1`. -/
def parseFinish (st : ParseState) (numLines : Nat) : ParseResult :=
  match st.root with
  | some r => ⟨st.components ++ [{ r with endLine := numLines - 1 }], st.nodes, st.errors⟩
  | none => ⟨st.components, st.nodes, st.errors⟩

/-- The initial `ParseResult`/locals of `Parse`. -/
def initState : ParseState := ⟨none, [], [], [], []⟩

/-- `Parse` on an already split line list. -/
def parseLines (ls : List (List Char)) : ParseResult :=
  parseFinish (parseLoop initState 0 ls) ls.length

/-- `ViewTreeParser.Parse`: split the content on newlines and run the loop. -/
def goParse (content : String) : ParseResult :=
  parseLines (splitOnChar '\n' content.data)

/-- The `ViewTreeParser` struct: its only field is the `lines` slice that
`Parse` overwrites on entry (`vtp.lines = strings.Split(content, "\n")`). -/
structure ViewTreeParserData where
  lines : List (List Char)
deriving Repr

/-- `Parse` as the method it is in Go: it first stores the split lines in the
receiver and then computes the result from that freshly written field, so the
returned `ParseResult` cannot depend on the receiver's previous state. -/
def parseWithState (_vtp : ViewTreeParserData) (content : String) :
    ViewTreeParserData × ParseResult :=
  let ls := splitOnChar '\n' content.data
  (⟨ls⟩, parseFinish (parseLoop initState 0 ls) ls.length)

/-- The backwards loop of `GetWordRangeAtPosition`:
`for start > 0 && start-1 < len(line) && isWordCharacter(line[start-1]) { start-- }`. -/
def scanLeft (line : List Char) : Nat → Nat
  | 0 => 0
  | s + 1 =>
      match line.get? s with
      | some c => if isWordChar c then scanLeft line s else s + 1
      | none => s + 1

/-- The forwards loop of `GetWordRangeAtPosition`:
`for end < len(line) && isWordCharacter(line[end]) { end++ }` — the loop
advances over exactly the word characters from index `e` on. -/
def scanRight (line : List Char) (e : Nat) : Nat :=
  e + ((line.drop e).takeWhile isWordChar).length

/-- `ViewTreeParser.GetWordRangeAtPosition`. -/
def getWordRangeAtPosition (content : String) (pos : Position) : Option Range :=
  let lines := splitOnChar '\n' content.data
  if lines.length ≤ pos.line then none
  else
    let line := (lines.get? pos.line).getD []
    if line.isEmpty then none
    else
      let start := scanLeft line pos.character
      let stop := scanRight line pos.character
      if start = stop then none
      else some ⟨⟨pos.line, start⟩, ⟨pos.line, stop⟩⟩

/-- `Server.positionToOffset`: sum of `len(line)+1` over the lines before
`pos.Line` (clamped to the line count), plus `pos.Character` when the line
index is in range. -/
def positionToOffset (lines : List (List Char)) (pos : Position) : Nat :=
  let offset := (lines.take pos.line).foldl (fun a l => a + (l.length + 1)) 0
  if pos.line < lines.length then offset + pos.character else offset

/-- `Server.applyTextChange`.  Go slices `text[:startOffset]` and
`text[endOffset:]`, which panic when an offset exceeds `len(text)`; the
panic is modelled as `none`. -/
def applyTextChange (text : String) (changeRange : Range) (newText : String) :
    Option String :=
  let lines := splitOnChar '\n' text.data
  let startOffset := positionToOffset lines changeRange.startPos
  let endOffset := positionToOffset lines changeRange.endPos
  if startOffset ≤ text.data.length ∧ endOffset ≤ text.data.length then
    some (String.mk (text.data.take startOffset ++ newText.data ++ text.data.drop endOffset))
  else none

/-- `DefinitionProvider.getTextInRange` (also `HoverProvider.getTextInRange`,
character for character the same function).  The final Go slice
`line[start:end]` is modelled with `drop`/`take`; the guards before it make
the two agree whenever `start ≤ end`, which holds for every range produced
by `GetWordRangeAtPosition`. -/
def getTextInRange (content : String) (r : Range) : String :=
  let lines := splitOnChar '\n' content.data
  if lines.length ≤ r.startPos.line then ""
  else
    let line := (lines.get? r.startPos.line).getD []
    if line.length ≤ r.startPos.character ∨ line.length < r.endPos.character then ""
    else
      String.mk ((line.drop r.startPos.character).take
        (r.endPos.character - r.startPos.character))

/-- `regexp.MatchString("[>=^]\\s*$", b)`: after stripping the trailing run
of regex whitespace, the last character is `>`, `=` or `^`. -/
def endsWithBindingOp (b : List Char) : Bool :=
  match b.reverse.dropWhile isRegexSpace with
  | c :: _ => c = '>' || c = '=' || c = '^'
  | [] => false

/-- `strings.HasSuffix(s, "$")`. -/
def endsWithDollar (l : List Char) : Bool :=
  match l.reverse with
  | c :: _ => c = '$'
  | [] => false

/-- `HoverProvider.getNodeType`. -/
def hpGetNodeType (content : String) (position : Position) (wordRange : Range) : String :=
  if wordRange.startPos.character = 1 ∧ wordRange.startPos.line = 0 then "root_class"
  else
    let lines := splitOnChar '\n' content.data
    if lines.length ≤ position.line then "sub_prop"
    else
      let line := (lines.get? position.line).getD []
      let sc := wordRange.startPos.character
      if 0 < sc ∧ sc - 1 < line.length ∧ (line.get? (sc - 1)).getD ' ' = '$' then "class"
      else if sc = 1 then "prop"
      else if 0 < sc ∧ endsWithBindingOp (line.take sc) then "prop"
      else "sub_prop"

/-- `DefinitionProvider.getNodeType`.  (`line[:wordRange.Start.Character]`
is modelled with `take`, which clamps; on the provider's call path the start
character never exceeds the line length.) -/
def dpGetNodeType (content : String) (position : Position) (wordRange : Range) : String :=
  let lines := splitOnChar '\n' content.data
  if lines.length ≤ position.line then "sub_prop"
  else
    let line := (lines.get? position.line).getD []
    let nodeText := getTextInRange content wordRange
    if position.character = 1 ∧ position.line = 0 then "root_class"
    else if ['$'].isPrefixOf nodeText.data then "class"
    else
      let beforeWord := line.take wordRange.startPos.character
      if goContains beforeWord ['$'] ∧ endsWithDollar (goTrimSpace beforeWord) then "class"
      else if wordRange.startPos.character = 1 then "prop"
      else if 2 ≤ wordRange.startPos.character ∧
          wordRange.startPos.character - 2 < line.length ∧
          ((line.get? (wordRange.startPos.character - 2)).getD ' ' = '>' ∨
           (line.get? (wordRange.startPos.character - 2)).getD ' ' = '=' ∨
           (line.get? (wordRange.startPos.character - 2)).getD ' ' = '^') then "prop"
      else "sub_prop"

/-- Go `ProjectData`.  All four Go fields are maps; `Components` is a
`map[string]bool` into which only `true` is ever written, so it is a key
list, and likewise for the inner maps of `ComponentProperties` and
`FileComponents`. -/
structure ProjectData where
  components : List String
  componentProperties : List (String × List String)
  componentFiles : List (String × String)
  fileComponents : List (String × List String)
deriving DecidableEq, Repr

/-- `NewProjectData`. -/
def newProjectData : ProjectData := ⟨[], [], [], []⟩

/-- Go map read `m[k]` as an option. -/
def assocGet {β : Type} (l : List (String × β)) (k : String) : Option β :=
  (l.find? (fun p => p.1 == k)).map (·.2)

/-- Go map write `m[k] = v` (replace or insert). -/
def assocSet {β : Type} (k : String) (v : β) (l : List (String × β)) :
    List (String × β) :=
  (k, v) :: l.filter (fun p => !(p.1 == k))

/-- Go `delete(m, k)`. -/
def assocDel {β : Type} (k : String) (l : List (String × β)) : List (String × β) :=
  l.filter (fun p => !(p.1 == k))

/-- `m[k] = true` on a `map[string]bool` modelled as its key list. -/
def keyAdd (k : String) (l : List String) : List String :=
  if l.contains k then l else l ++ [k]

/-- The head of `parseViewTreeFile` and `parseTsFile`: drop the
`ComponentFiles` entries of the components this file previously owned, then
reset `FileComponents[filePath]` to an empty set.  (Note: `Components` and
`ComponentProperties` are not touched here.) -/
def clearFileEntries (pd : ProjectData) (filePath : String) : ProjectData :=
  let pd1 :=
    match assocGet pd.fileComponents filePath with
    | some comps =>
        { pd with
          componentFiles := comps.foldl (fun cf comp =>
            if assocGet cf comp == some filePath then assocDel comp cf else cf)
            pd.componentFiles }
    | none => pd
  { pd1 with fileComponents := assocSet filePath [] pd1.fileComponents }

/-- The scanner's property regex `^(\s+)([a-zA-Z_][a-zA-Z0-9_?*]*)\s*`
applied to the whole line (group 2; group 1 is the mandatory leading
whitespace, so `len(indentMatch[1]) > 0` is implied by a match). -/
def scannerIndentMatch (line : List Char) : Option (List Char) :=
  let ws := line.takeWhile isRegexSpace
  if ws.isEmpty then none
  else
    match line.dropWhile isRegexSpace with
    | c :: cs => if isIdentFirst c then some (c :: cs.takeWhile isIdentCont) else none
    | [] => none

/-- One position of the search for the scanner's binding regex
`<=\s+([a-zA-Z_][a-zA-Z0-9_?*]*)`. -/
def scanBindingAt (s : List Char) : Option (List Char) :=
  if ['<', '='].isPrefixOf s then
    let r := s.drop 2
    if (r.takeWhile isRegexSpace).isEmpty then none
    else
      match r.dropWhile isRegexSpace with
      | c :: cs => if isIdentFirst c then some (c :: cs.takeWhile isIdentCont) else none
      | [] => none
  else none

/-- Leftmost match of the scanner's binding regex (the submatch group). -/
def findScanBinding : List Char → Option (List Char)
  | [] => none
  | c :: cs =>
      match scanBindingAt (c :: cs) with
      | some r => some r
      | none => findScanBinding cs

/-- `ps.projectData.ComponentProperties[comp][prop] = true`.  (Go would
panic writing to a nil inner map; on every path here the entry for `comp`
was created when `currentComponent` was set, so the write-or-create below
agrees with the source.) -/
def addComponentProp (pd : ProjectData) (comp prop : String) : ProjectData :=
  { pd with
    componentProperties :=
      assocSet comp (keyAdd prop ((assocGet pd.componentProperties comp).getD []))
        pd.componentProperties }

/-- The loop state of `ProjectScanner.parseViewTreeFile`: the shared index
plus the `currentComponent` local (`""` = none yet). -/
structure ScanState where
  pd : ProjectData
  current : String
deriving DecidableEq, Repr

/-- One iteration of `parseViewTreeFile`'s `for _, line := range lines`. -/
def viewTreeLineStep (filePath : String) (st : ScanState) (line : List Char) : ScanState :=
  let trimmed := goTrimSpace line
  let st1 :=
    if !(['\t'].isPrefixOf line) && !([' '].isPrefixOf line) &&
        ['$'].isPrefixOf trimmed then
      match goFields trimmed with
      | firstWord :: _ =>
          if ['$'].isPrefixOf firstWord then
            let name := String.mk firstWord
            let pd := st.pd
            let pd :=
              { pd with
                components := keyAdd name pd.components,
                componentFiles := assocSet name filePath pd.componentFiles,
                fileComponents := assocSet filePath
                  (keyAdd name ((assocGet pd.fileComponents filePath).getD []))
                  pd.fileComponents }
            let pd :=
              if (assocGet pd.componentProperties name).isSome then pd
              else { pd with componentProperties := assocSet name [] pd.componentProperties }
            { pd := pd, current := name }
          else st
      | [] => st
    else st
  if st1.current = "" then st1
  else
    let st2 :=
      match scannerIndentMatch line with
      | some prop =>
          if !(goContains trimmed ['<', '=']) && !(goContains trimmed ['<', '=', '>']) then
            let p := String.mk prop
            if ¬(p = "") ∧ ¬(['$'].isPrefixOf prop) ∧ ¬(p = "null") ∧ ¬(p = "true") ∧
                ¬(p = "false") then
              { st1 with pd := addComponentProp st1.pd st1.current p }
            else st1
          else st1
      | none => st1
    match findScanBinding trimmed with
    | some prop =>
        let p := String.mk prop
        if ¬(p = "") ∧ ¬(['$'].isPrefixOf prop) then
          { st2 with pd := addComponentProp st2.pd st2.current p }
        else st2
    | none => st2

/-- `ProjectScanner.parseViewTreeFile`. -/
def parseViewTreeFile (content filePath : String) (pd : ProjectData) : ProjectData :=
  let lines := splitOnChar '\n' content.data
  (lines.foldl (viewTreeLineStep filePath) ⟨clearFileEntries pd filePath, ""⟩).pd

/-- `regexp.MustCompile("\\$\\w+").FindAllString(content, -1)`: leftmost,
non-overlapping, resuming after each match. -/
def findDollarWords : List Char → List (List Char)
  | [] => []
  | c :: cs =>
      if c = '$' then
        let w := cs.takeWhile isRegexWord
        if w.isEmpty then findDollarWords cs
        else ('$' :: w) :: findDollarWords (cs.drop w.length)
      else findDollarWords cs
termination_by l => l.length
decreasing_by
  · simp
  · simp [List.length_drop]; omega
  · simp

/-- `ProjectScanner.parseTsFile` (the early return on no matches comes
before the per-file clearing, as in the source). -/
def parseTsFile (content filePath : String) (pd : ProjectData) : ProjectData :=
  let found := findDollarWords content.data
  if found.isEmpty then pd
  else
    found.foldl (fun pd m =>
      let name := String.mk m
      let pd := { pd with components := keyAdd name pd.components }
      let pd :=
        if (assocGet pd.componentFiles name).isSome then pd
        else { pd with componentFiles := assocSet name filePath pd.componentFiles }
      { pd with
        fileComponents := assocSet filePath
          (keyAdd name ((assocGet pd.fileComponents filePath).getD []))
          pd.fileComponents })
      (clearFileEntries pd filePath)

/-- `strings.HasSuffix`. -/
def goHasSuffix (s suffix : String) : Bool :=
  suffix.data.reverse.isPrefixOf s.data.reverse

/-- `ProjectScanner.UpdateSingleFile` (the logging dropped). -/
def updateSingleFile (filePath content : String) (pd : ProjectData) : ProjectData :=
  if goHasSuffix filePath ".view.tree" then parseViewTreeFile content filePath pd
  else if goHasSuffix filePath ".ts" then parseTsFile content filePath pd
  else pd

/-- `ProjectScanner.HasComponent`: `pd.Components[component]`, a map read
that defaults to `false`. -/
def hasComponent (pd : ProjectData) (c : String) : Bool := pd.components.contains c

/-- Lexicographic order on character lists by codepoint: on the ASCII data
in scope this is exactly Go's byte-wise string order. -/
def charListLe : List Char → List Char → Bool
  | [], _ => true
  | _ :: _, [] => false
  | a :: as, b :: bs => if a = b then charListLe as bs else decide (a.toNat < b.toNat)

/-- Insertion into a list sorted by `charListLe`. -/
def insertSorted (x : String) : List String → List String
  | [] => [x]
  | y :: ys => if charListLe x.data y.data then x :: y :: ys else y :: insertSorted x ys

/-- `sort.Strings` (lexicographic; the inputs here are duplicate-free key
lists, on which every sort agrees). -/
def sortStrings (l : List String) : List String := l.foldr insertSorted []

/-- `ProjectScanner.GetPropertiesForComponent`. -/
def getPropertiesForComponent (pd : ProjectData) (comp : String) : List String :=
  match assocGet pd.componentProperties comp with
  | none => []
  | some props => sortStrings props

/-- The indent level as the specification words it ("count of leading
whitespace characters, tabs and spaces both count as one unit each") —
stated for comparison with the source's `getIndentLevel`. -/
def specIndentLevel (l : List Char) : Nat :=
  (l.takeWhile (fun c => c = '\t' || c = ' ')).length

/-- Is the character at index `i` of the line an identifier character
(out-of-range counts as no)? -/
def wordCharAt (line : List Char) (i : Nat) : Bool :=
  match line.get? i with
  | some c => isWordChar c
  | none => false

/-- A line the parser skips without interpretation: blank after trimming,
or a `//` comment. -/
def isBlankOrComment (line : List Char) : Bool :=
  (goTrimSpace line).isEmpty || ['/', '/'].isPrefixOf (goTrimSpace line)

/-- Adjacent parsed root components meet exactly: the earlier one's
`endLine` is one less than the later one's `startLine`. -/
def compAdjacent (a b : ParsedComponent) : Prop := a.endLine + 1 = b.startLine

/-- The loop invariant of `Parse` at line index `i`: the flushed components
chain by `compAdjacent`; an open root was opened strictly before `i` and
meets the last flushed component exactly; components are only ever flushed
while a root is open.  (The open root is referred to through its
`startLine`, the only field of it the invariant depends on.) -/
def ParseInv (st : ParseState) (i : Nat) : Prop :=
  List.Chain' compAdjacent st.components ∧
  (∀ s, st.root.map ParsedComponent.startLine = some s →
    s < i ∧ ∀ c, st.components.getLast? = some c → c.endLine + 1 = s) ∧
  (st.root = none → st.components = [])

end ViewTree

open ViewTree

lemma foldl_lensum (ls : List (List Char)) :
    ∀ a : Nat, ls.foldl (fun acc l => acc + (l.length + 1)) a
      = a + (ls.map (fun l => l.length + 1)).sum := by
  induction ls with
  | nil => intro a; simp
  | cons x xs ih => intro a; simp only [List.foldl_cons, List.map_cons, List.sum_cons, ih]; omega

lemma splitOnChar_ne_nil (sep : Char) (l : List Char) : splitOnChar sep l ≠ [] := by
  cases l with
  | nil => simp [splitOnChar]
  | cons c cs =>
      simp only [splitOnChar]
      split
      · simp
      · split <;> simp

lemma lensum_splitOn (sep : Char) (l : List Char) :
    ((splitOnChar sep l).map (fun x => x.length + 1)).sum = l.length + 1 := by
  induction l with
  | nil => simp [splitOnChar]
  | cons c cs ih =>
      cases h : splitOnChar sep cs with
      | nil => exact absurd h (splitOnChar_ne_nil sep cs)
      | cons r rs =>
          rw [h] at ih
          by_cases hc : c = sep
          · simp [splitOnChar, h, hc] at ih ⊢; omega
          · simp [splitOnChar, h, hc] at ih ⊢; omega

lemma positionToOffset_past_end (text : String) (pos : Position)
    (h : (splitOnChar '\n' text.data).length ≤ pos.line) :
    positionToOffset (splitOnChar '\n' text.data) pos = text.length + 1 := by
  unfold positionToOffset
  rw [if_neg (by omega), List.take_of_length_le h, foldl_lensum, lensum_splitOn]
  have hl : text.length = text.data.length := rfl
  omega

/-- C1: after `UpdateSingleFile` replaces a file that defined `$A` with
content defining `$B`, the `Components` set still reports `$A` — the
re-parse only retracts the file's `ComponentFiles` entries, never the
`Components` (or `ComponentProperties`) entries, so `HasComponent "$A"`
stays true where the specification demands false. -/
theorem c1_update_keeps_ghost_component :
    hasComponent (updateSingleFile "f.view.tree" "$B\n"
      (updateSingleFile "f.view.tree" "$A\n" newProjectData)) "$A" = true ∧
    hasComponent (updateSingleFile "f.view.tree" "$B\n"
      (updateSingleFile "f.view.tree" "$A\n" newProjectData)) "$B" = true ∧
    assocGet (updateSingleFile "f.view.tree" "$B\n"
      (updateSingleFile "f.view.tree" "$A\n" newProjectData)).componentFiles "$A" = none := by
  decide

/-- C2 counterexample: on a line indented with two spaces the parser's
`getIndentLevel` returns 0, not the leading-whitespace count 2 claimed by
the specification (it counts tabs only). -/
theorem c2_counterexample :
    getIndentLevel "  x".data = 0 ∧ specIndentLevel "  x".data = 2 ∧
    getIndentLevel "  x".data ≠ specIndentLevel "  x".data := by
  decide

/-- C2 (amended): `getIndentLevel` counts exactly the leading tab
characters — a space stops the count — and consequently a property line
indented with spaces gets indent level 0 and is silently dropped by `Parse`
(no property, no node, no error). -/
theorem c2_indent_counts_tabs_only :
    (∀ l : List Char, getIndentLevel l = (l.takeWhile (fun c => c = '\t')).length) ∧
    (goParse "$x\n  prop val\n").components.map (fun c => c.properties) = [[]] ∧
    (goParse "$x\n  prop val\n").errors = [] ∧
    (goParse "$x\n  prop val\n").nodes.map (fun n => n.type) = ["class"] := by
  refine ⟨?_, by decide, by decide, by decide⟩
  intro l
  induction l with
  | nil => rfl
  | cons c cs ih =>
      simp only [getIndentLevel, List.takeWhile_cons]
      by_cases h : c = '\t'
      · simp [h, ih]
      · simp [h]

/-- C3: for a position whose line is at or beyond the line count,
`positionToOffset` returns `len(text) + 1`, one more than the length of the
text, and `applyTextChange` at such a position slices out of bounds (the Go
panic, modelled as `none`) — shown concretely on `"ab"` at line 1 and in
general. -/
theorem c3_offset_exceeds_length :
    positionToOffset (splitOnChar '\n' "ab".data) ⟨1, 0⟩ = 3 ∧
    "ab".length = 2 ∧
    applyTextChange "ab" ⟨⟨1, 0⟩, ⟨1, 0⟩⟩ "x" = none ∧
    (∀ (text : String) (pos : Position),
      (splitOnChar '\n' text.data).length ≤ pos.line →
      positionToOffset (splitOnChar '\n' text.data) pos = text.length + 1) :=
  ⟨by decide, by decide, by decide, fun text pos h => positionToOffset_past_end text pos h⟩

/-- C4 counterexample: the hover provider's and the definition provider's
node classifiers disagree on content `"$foo"` at position (0,2) with the
word range the shared word-range routine would produce (characters 0–4 of
line 0). -/
theorem c4_counterexample :
    ¬ (hpGetNodeType "$foo" ⟨0, 2⟩ ⟨⟨0, 0⟩, ⟨0, 4⟩⟩ =
       dpGetNodeType "$foo" ⟨0, 2⟩ ⟨⟨0, 0⟩, ⟨0, 4⟩⟩) := by
  decide

/-- C4 (amended): the two providers implement separate classifiers; each
always answers one of root_class, class, prop, sub_prop (never comp), but
they are not the same function — on `"$foo"` at position (0,2) with word
range 0–4, hover answers sub_prop while definition answers class. -/
theorem c4_classifiers_disagree :
    (∀ (c : String) (p : Position) (r : Range),
      hpGetNodeType c p r ∈ ["root_class", "class", "prop", "sub_prop"] ∧
      dpGetNodeType c p r ∈ ["root_class", "class", "prop", "sub_prop"]) ∧
    hpGetNodeType "$foo" ⟨0, 2⟩ ⟨⟨0, 0⟩, ⟨0, 4⟩⟩ = "sub_prop" ∧
    dpGetNodeType "$foo" ⟨0, 2⟩ ⟨⟨0, 0⟩, ⟨0, 4⟩⟩ = "class" := by
  refine ⟨fun c p r => ⟨?_, ?_⟩, by decide, by decide⟩
  · simp only [hpGetNodeType]
    repeat' split
    all_goals simp
  · simp only [dpGetNodeType]
    repeat' split
    all_goals simp

lemma scanLeft_le (line : List Char) (c : Nat) : scanLeft line c ≤ c := by
  induction c with
  | zero => simp [scanLeft]
  | succ s ih =>
      simp only [scanLeft]
      cases h : line.get? s with
      | none => simp
      | some ch =>
          by_cases hw : isWordChar ch
          · simp [hw]; omega
          · simp [hw]

lemma scanLeft_eq_iff (line : List Char) (c : Nat) :
    scanLeft line c = c ↔ (c = 0 ∨ wordCharAt line (c - 1) = false) := by
  cases c with
  | zero => simp [scanLeft]
  | succ s =>
      have hle := scanLeft_le line s
      have hw' : wordCharAt line (s + 1 - 1) = wordCharAt line s := by simp
      rw [hw']
      show (match line.get? s with
           | some ch => if isWordChar ch then scanLeft line s else s + 1
           | none => s + 1) = s + 1 ↔ _
      cases h : line.get? s with
      | none => simp only [wordCharAt, h]; simp
      | some ch =>
          by_cases hw : isWordChar ch
          · simp only [hw, if_true, reduceIte, wordCharAt, h]
            constructor
            · intro he; omega
            · rintro (he | he)
              · omega
              · simp [hw] at he
          · simp only [hw, wordCharAt, h]; simp [hw]

lemma get?_eq_head?_drop {α : Type} (l : List α) (n : Nat) :
    l.get? n = (l.drop n).head? := by
  induction l generalizing n with
  | nil => simp
  | cons a as ih =>
      cases n with
      | zero => simp
      | succ m => exact ih m

lemma scanRight_eq_iff (line : List Char) (e : Nat) :
    scanRight line e = e ↔ wordCharAt line e = false := by
  simp only [scanRight, wordCharAt, get?_eq_head?_drop]
  cases hd : line.drop e with
  | nil => simp
  | cons a as =>
      by_cases hw : isWordChar a <;> simp [List.takeWhile_cons, hw]

lemma expansion_empty_iff (line : List Char) (c : Nat) :
    scanLeft line c = scanRight line c ↔
      (wordCharAt line c = false ∧ (c = 0 ∨ wordCharAt line (c - 1) = false)) := by
  have hle := scanLeft_le line c
  have hge : c ≤ scanRight line c := Nat.le_add_right c _
  constructor
  · intro h
    have h1 : scanLeft line c = c := by omega
    have h2 : scanRight line c = c := by omega
    exact ⟨(scanRight_eq_iff line c).1 h2, (scanLeft_eq_iff line c).1 h1⟩
  · intro hb
    have h1 : scanLeft line c = c := (scanLeft_eq_iff line c).2 hb.2
    have h2 : scanRight line c = c := (scanRight_eq_iff line c).2 hb.1
    omega

/-- C5 counterexample: at position (0,2) of `"ab c"` the addressed
character is a space — not in the identifier alphabet — yet
`GetWordRangeAtPosition` returns the range of the word `ab` ending at the
cursor instead of the `none` the claim demands. -/
theorem c5_counterexample :
    wordCharAt "ab c".data 2 = false ∧
    getWordRangeAtPosition "ab c" ⟨0, 2⟩ = some ⟨⟨0, 0⟩, ⟨0, 2⟩⟩ := by
  decide

/-- C5 (amended): `GetWordRangeAtPosition` returns none exactly when the
line index is out of range, the addressed line is empty, or the expansion is
empty — that is, neither the character at `pos.character` nor the one
immediately before it is an identifier character.  (A position sitting on a
non-identifier character directly after a word still yields that word's
range.)  The two closing conjuncts instantiate the equivalence on `"ab c"`:
a word position yields its range, an out-of-range line yields none. -/
theorem c5_word_range_none_iff :
    (∀ (content : String) (pos : Position),
      getWordRangeAtPosition content pos = none ↔
        ((splitOnChar '\n' content.data).length ≤ pos.line ∨
         ((splitOnChar '\n' content.data).get? pos.line).getD [] = [] ∨
         (wordCharAt (((splitOnChar '\n' content.data).get? pos.line).getD [])
            pos.character = false ∧
          (pos.character = 0 ∨
           wordCharAt (((splitOnChar '\n' content.data).get? pos.line).getD [])
             (pos.character - 1) = false)))) ∧
    getWordRangeAtPosition "ab c" ⟨0, 3⟩ = some ⟨⟨0, 3⟩, ⟨0, 4⟩⟩ ∧
    getWordRangeAtPosition "ab c" ⟨1, 0⟩ = none := by
  refine ⟨fun content pos => ?_, by decide, by decide⟩
  unfold getWordRangeAtPosition
  dsimp only
  by_cases h1 : (splitOnChar '\n' content.data).length ≤ pos.line
  · simp only [h1, if_pos, reduceIte]; simp [h1]
  · by_cases h2 : ((splitOnChar '\n' content.data).get? pos.line).getD [] = []
    · simp only [h1, h2]
      simp [h1, h2]
    · by_cases h4 : scanLeft (((splitOnChar '\n' content.data).get? pos.line).getD []) pos.character =
          scanRight (((splitOnChar '\n' content.data).get? pos.line).getD []) pos.character
      · have hx := (expansion_empty_iff (((splitOnChar '\n' content.data).get? pos.line).getD []) pos.character).1 h4
        simp only [if_neg h1, List.isEmpty_iff, if_neg h2, if_pos h4]
        exact ⟨fun _ => Or.inr (Or.inr hx), fun _ => trivial⟩
      · simp only [if_neg h1, List.isEmpty_iff, if_neg h2, if_neg h4]
        simp only [reduceCtorEq, false_iff]
        push_neg
        refine ⟨by omega, h2, fun hx => ?_⟩
        exact ⟨fun h0 => h4 ((expansion_empty_iff _ _).2 ⟨hx, Or.inl h0⟩),
               fun hy => h4 ((expansion_empty_iff _ _).2 ⟨hx, Or.inr hy⟩)⟩

/-- C6: parsing `"$x\n\tfield <=> target\n"` yields the single property
`field` marked as a binding with type two-way and bound value `target` —
the `<=>` operator is recognised before its prefix `<=`. -/
theorem c6_two_way_detected_first :
    (goParse "$x\n\tfield <=> target\n").components.map
      (fun c => c.properties.map (fun p => (p.name, p.isBinding, p.bindingType, p.value)))
      = [[("field", true, "two-way", "target")]] := by
  decide

/-- C7: parsing `"\tlone_prop value\n"` yields no components and exactly
one error of severity error spanning line 0 from character 0 to the end of
that line (length 16). -/
theorem c7_orphan_property_error :
    (goParse "\tlone_prop value\n").components = [] ∧
    (goParse "\tlone_prop value\n").errors =
      [⟨"Property defined outside of component", ⟨⟨0, 0⟩, ⟨0, 16⟩⟩, "error"⟩] ∧
    "\tlone_prop value".data.length = 16 := by
  decide

/-- C9: `Parse` is free of hidden state — the method overwrites its only
receiver field before reading it, so the result is independent of the
receiver's previous state (including state left by parsing other content),
and parsing the same content twice yields structurally equal results. -/
theorem c9_parse_idempotent_stateless :
    ∀ (vtp vtp2 : ViewTreeParserData) (content other : String),
      (parseWithState vtp content).2 = (parseWithState vtp2 content).2 ∧
      (parseWithState (parseWithState vtp other).1 content).2 =
        (parseWithState vtp content).2 ∧
      (parseWithState (parseWithState vtp content).1 content).2 =
        (parseWithState vtp content).2 :=
  fun _ _ _ _ => ⟨rfl, rfl, rfl⟩

lemma ParseInv_transfer {st st2 : ParseState} {i j : Nat}
    (hc : st2.components = st.components)
    (hr : st2.root.map ParsedComponent.startLine = st.root.map ParsedComponent.startLine)
    (hij : i ≤ j) (h : ParseInv st i) : ParseInv st2 j := by
  obtain ⟨h1, h2, h3⟩ := h
  refine ⟨hc ▸ h1, ?_, ?_⟩
  · intro s hs
    have hx := h2 s (hr ▸ hs)
    exact ⟨by omega, by rw [hc]; exact hx.2⟩
  · intro hn
    have h0 : st.root.map ParsedComponent.startLine = none := by rw [← hr, hn]; rfl
    rw [hc]
    exact h3 (Option.map_eq_none'.mp h0)

lemma goFields_aux (c : Char) (h : isGoSpace c = false) (acc : List (List Char)) :
    ((if isGoSpace c then ([] : List Char) :: acc
      else match acc with | [] => [[c]] | w :: ws => (c :: w) :: ws).filter
        (fun w => !w.isEmpty)) ≠ [] := by
  rw [if_neg (by simp [h])]
  cases acc with
  | nil => simp
  | cons w ws => simp [List.filter_cons]

lemma goFields_cons_ne_nil {c : Char} {cs : List Char} (h : isGoSpace c = false) :
    goFields (c :: cs) ≠ [] := by
  unfold goFields
  exact goFields_aux c h _

lemma addPropAt_components (st : ParseState) (lvl : Nat) (p : ParsedProperty) :
    (addPropAt st lvl p).components = st.components := by
  unfold addPropAt
  split <;> rfl

lemma addPropAt_rootStart (st : ParseState) (lvl : Nat) (p : ParsedProperty) :
    (addPropAt st lvl p).root.map ParsedComponent.startLine
      = st.root.map ParsedComponent.startLine := by
  unfold addPropAt
  split
  · cases st.root <;> rfl
  · rfl

lemma parseStepIndent_components (st : ParseState) (i : Nat) (l t : List Char) (n : Nat) :
    (parseStepIndent st i l t n).components = st.components := by
  unfold parseStepIndent
  dsimp only
  repeat' split
  all_goals simp [addPropAt_components]

lemma parseStepIndent_rootStart (st : ParseState) (i : Nat) (l t : List Char) (n : Nat) :
    (parseStepIndent st i l t n).root.map ParsedComponent.startLine
      = st.root.map ParsedComponent.startLine := by
  unfold parseStepIndent
  dsimp only
  repeat' split
  all_goals simp [addPropAt_rootStart]
lemma parseStepRoot_inv (st : ParseState) (i : Nat) (l t : List Char)
    (ht : ['$'].isPrefixOf t = true) (h : ParseInv st i) :
    ParseInv (parseStepRoot st i l t) (i + 1) := by
  obtain ⟨h1, h2, h3⟩ := h
  unfold parseStepRoot
  dsimp only
  cases hf : goFields t with
  | nil =>
      exfalso
      cases t with
      | nil => simp [List.isPrefixOf] at ht
      | cons c cs =>
          have hc : c = '$' := by
            simp [List.isPrefixOf] at ht
            exact ht.symm
          exact goFields_cons_ne_nil (by rw [hc]; decide) hf
  | cons w ws =>
      cases hroot : st.root with
      | none =>
          have hcomps := h3 hroot
          dsimp only
          refine ⟨?_, ?_, ?_⟩
          · dsimp only
            rw [hcomps]
            exact List.chain'_nil
          · intro s hs
            dsimp only at hs
            have hsi : i = s := by simpa using hs
            refine ⟨by omega, ?_⟩
            intro c hcst
            dsimp only at hcst
            rw [hcomps] at hcst
            simp at hcst
          · intro hn
            simp at hn
      | some r =>
          have hx := h2 r.startLine (by rw [hroot]; rfl)
          dsimp only
          refine ⟨?_, ?_, ?_⟩
          · dsimp only
            rw [List.chain'_append]
            refine ⟨h1, List.chain'_singleton _, ?_⟩
            intro x hx' y hy'
            have hy2 : y = { r with endLine := i - 1 } := by simpa using hy'.symm
            subst hy2
            unfold compAdjacent
            dsimp only
            exact hx.2 x (Option.mem_def.mp hx')
          · intro s hs
            dsimp only at hs
            have hsi : i = s := by simpa using hs
            refine ⟨by omega, ?_⟩
            intro c hcst
            dsimp only at hcst
            rw [List.getLast?_concat] at hcst
            have hc2 : c = { r with endLine := i - 1 } := (Option.some_inj.mp hcst).symm
            subst hc2
            have hlt := hx.1
            dsimp only
            omega
          · intro hn
            simp at hn

lemma parseStep_inv (st : ParseState) (i : Nat) (l : List Char) (h : ParseInv st i) :
    ParseInv (parseStep st i l) (i + 1) := by
  unfold parseStep
  dsimp only
  split
  · exact ParseInv_transfer rfl rfl (Nat.le_succ i) h
  split
  · exact ParseInv_transfer rfl rfl (Nat.le_succ i) h
  split
  · rename_i hcond
    have ht : ['$'].isPrefixOf (goTrimSpace l) = true := by
      simp only [Bool.and_eq_true] at hcond
      exact hcond.2
    exact parseStepRoot_inv st i l (goTrimSpace l) ht h
  split
  · exact ParseInv_transfer (parseStepIndent_components st i l (goTrimSpace l) (getIndentLevel l))
      (parseStepIndent_rootStart st i l (goTrimSpace l) (getIndentLevel l)) (Nat.le_succ i) h
  · exact ParseInv_transfer rfl rfl (Nat.le_succ i) h

lemma parseLoop_inv : ∀ (ls : List (List Char)) (st : ParseState) (i : Nat),
    ParseInv st i → ParseInv (parseLoop st i ls) (i + ls.length) := by
  intro ls
  induction ls with
  | nil => intro st i h; simpa using h
  | cons x xs ih =>
      intro st i h
      rw [show i + (x :: xs).length = (i + 1) + xs.length from by simp; omega]
      exact ih (parseStep st i x) (i + 1) (parseStep_inv st i x h)

lemma parseFinish_chain (st : ParseState) (i n : Nat) (h : ParseInv st i) :
    List.Chain' compAdjacent (parseFinish st n).components := by
  obtain ⟨h1, h2, h3⟩ := h
  unfold parseFinish
  cases hroot : st.root with
  | none => exact h1
  | some r =>
      dsimp only
      rw [List.chain'_append]
      refine ⟨h1, List.chain'_singleton _, ?_⟩
      intro x hx' y hy'
      have hy2 : y = { r with endLine := n - 1 } := by simpa using hy'.symm
      subst hy2
      unfold compAdjacent
      dsimp only
      exact (h2 r.startLine (by rw [hroot]; rfl)).2 x (Option.mem_def.mp hx')

lemma goParse_chain (content : String) :
    List.Chain' compAdjacent (goParse content).components := by
  unfold goParse parseLines
  apply parseFinish_chain _ (0 + (splitOnChar '\n' content.data).length)
  apply parseLoop_inv
  exact ⟨List.chain'_nil, by intro s hs; simp [initState] at hs, fun _ => rfl⟩

/-- C8: component boundary invariant. -/
theorem c8_component_boundaries :
    ∀ content : String,
      List.Chain' (fun c1 c2 =>
        c1.endLine < c2.startLine ∧
        ∀ l : Nat, c1.endLine < l → l < c2.startLine →
          isBlankOrComment (((splitOnChar '\n' content.data).get? l).getD []) = false →
          ∃ e ∈ (goParse content).errors, e.range.startPos.line = l)
        (goParse content).components := by
  intro content
  refine List.Chain'.imp ?_ (goParse_chain content)
  intro a b hab
  unfold compAdjacent at hab
  exact ⟨by omega, fun l hl1 hl2 _ => absurd hab (by omega)⟩
lemma identCont_not_goSpace {c : Char} (h : isIdentCont c = true) : isGoSpace c = false := by
  by_contra hne
  have hs : isGoSpace c = true := by revert hne; cases isGoSpace c <;> simp
  simp only [isGoSpace, Bool.or_eq_true, decide_eq_true_eq] at hs
  rcases hs with ((((((h1 | h1) | h1) | h1) | h1) | h1) | h1) | h1 <;> subst h1 <;>
    exact absurd h (by decide)

lemma identCont_not_regexSpace {c : Char} (h : isIdentCont c = true) :
    isRegexSpace c = false := by
  by_contra hne
  have hs : isRegexSpace c = true := by revert hne; cases isRegexSpace c <;> simp
  simp only [isRegexSpace, Bool.or_eq_true, decide_eq_true_eq] at hs
  rcases hs with (((h1 | h1) | h1) | h1) | h1 <;> subst h1 <;> exact absurd h (by decide)

lemma identCont_ne_lt {c : Char} (h : isIdentCont c = true) : c ≠ '<' :=
  fun he => absurd h (by rw [he]; decide)

lemma identFirst_cont {c : Char} (h : isIdentFirst c = true) : isIdentCont c = true := by
  simp only [isIdentFirst, Bool.or_eq_true, decide_eq_true_eq] at h
  simp only [isIdentCont, Bool.or_eq_true, decide_eq_true_eq]
  tauto

lemma identFirst_ne_dollar {c : Char} (h : isIdentFirst c = true) : c ≠ '$' :=
  fun he => absurd h (by rw [he]; decide)

lemma takeWhile_all {α : Type} (p : α → Bool) (l : List α) (h : ∀ c ∈ l, p c = true) :
    l.takeWhile p = l := by
  induction l with
  | nil => rfl
  | cons x xs ih =>
      rw [List.takeWhile_cons, h x (by simp)]
      simp [ih fun c hc => h c (by simp [hc])]

lemma getLast?_mem_own {α : Type} {l : List α} {a : α} (h : l.getLast? = some a) :
    a ∈ l := by
  have h2 : l.reverse.head? = some a := by rw [List.head?_reverse]; exact h
  cases hr : l.reverse with
  | nil => rw [hr] at h2; simp at h2
  | cons x xs =>
      rw [hr] at h2
      have hxa : x = a := by simpa using h2
      subst hxa
      exact (List.mem_reverse).mp (by rw [hr]; simp)

lemma getLast?_append_right {α : Type} (l1 l2 : List α) (h : l2 ≠ []) :
    (l1 ++ l2).getLast? = l2.getLast? := by
  rw [List.getLast?_append]
  cases hl : l2.getLast? with
  | none => exact absurd (List.getLast?_eq_none_iff.mp hl) h
  | some a => rfl

lemma goTrimLeft_tab_cons (body : List Char)
    (hhead : ∀ x, body.head? = some x → isGoSpace x = false) :
    goTrimLeft ('\t' :: body) = body := by
  unfold goTrimLeft
  rw [List.dropWhile_cons]
  simp only [show isGoSpace '\t' = true from by decide, if_true, reduceIte]
  cases body with
  | nil => rfl
  | cons b bs =>
      rw [List.dropWhile_cons, hhead b rfl]
      simp

lemma goTrimRight_keep (l : List Char)
    (hl : ∀ x, l.getLast? = some x → isGoSpace x = false) : goTrimRight l = l := by
  unfold goTrimRight
  cases hr : l.reverse with
  | nil => simp [List.reverse_eq_nil_iff.mp hr]
  | cons x xs =>
      have hx : l.getLast? = some x := by rw [← List.head?_reverse, hr]; rfl
      rw [List.dropWhile_cons, hl x hx]
      simp [← hr]

lemma goTrimSpace_tab_cons (body : List Char)
    (hhead : ∀ x, body.head? = some x → isGoSpace x = false)
    (hlast : ∀ x, body.getLast? = some x → isGoSpace x = false) :
    goTrimSpace ('\t' :: body) = body := by
  unfold goTrimSpace
  rw [goTrimLeft_tab_cons body hhead]
  exact goTrimRight_keep body hlast
lemma scanBindingAt_not_lt {c : Char} (h : c ≠ '<') (cs : List Char) :
    scanBindingAt (c :: cs) = none := by
  unfold scanBindingAt
  have hp : (['<', '='].isPrefixOf (c :: cs)) = false := by
    simp only [List.isPrefixOf, Bool.and_eq_true, beq_iff_eq]
    simp only [Bool.and_eq_false_iff]
    left
    simpa using fun he => h he.symm
  simp [hp]

lemma findScanBinding_skip (pre : List Char) (s : List Char)
    (hpre : ∀ c ∈ pre, c ≠ '<') :
    findScanBinding (pre ++ s) = findScanBinding s := by
  induction pre with
  | nil => rfl
  | cons c cs ih =>
      have hc := hpre c (by simp)
      show findScanBinding (c :: (cs ++ s)) = findScanBinding s
      rw [show findScanBinding (c :: (cs ++ s)) =
          (match scanBindingAt (c :: (cs ++ s)) with
           | some r => some r
           | none => findScanBinding (cs ++ s)) from rfl]
      rw [scanBindingAt_not_lt hc]
      exact ih fun x hx => hpre x (by simp [hx])

lemma scanBindingAt_hit (tc : Char) (tcs : List Char)
    (htc : isIdentFirst tc = true) (htcs : ∀ c ∈ tcs, isIdentCont c = true) :
    scanBindingAt ('<' :: '=' :: ' ' :: tc :: tcs) = some (tc :: tcs) := by
  unfold scanBindingAt
  rw [if_pos (by simp [List.isPrefixOf])]
  have hsp : isRegexSpace tc = false := identCont_not_regexSpace (identFirst_cont htc)
  dsimp only [List.drop_succ_cons, List.drop_zero]
  rw [List.takeWhile_cons]
  simp only [show isRegexSpace ' ' = true from by decide, if_true, reduceIte]
  rw [List.dropWhile_cons]
  simp only [show isRegexSpace ' ' = true from by decide, if_true, reduceIte]
  rw [List.dropWhile_cons, hsp]
  simp only [List.isEmpty_cons, reduceIte, Bool.false_eq_true, if_false]
  rw [htc]
  simp [takeWhile_all isIdentCont tcs htcs]

lemma goContains_of_suffix_prefixed (a b nee : List Char) (h : nee.isPrefixOf b = true) :
    goContains (a ++ b) nee = true := by
  induction a with
  | nil =>
      unfold goContains subIndexNat
      simp [h]
  | cons c cs ih =>
      unfold goContains subIndexNat
      split
      · simp
      · simp only [List.cons_append]
        cases hsub : subIndexNat (cs ++ b) nee with
        | none => simp [goContains, hsub] at ih
        | some k => simp [hsub]
lemma viewTreeLineStep_binding (st : ScanState) (fp : String)
    (nc tc : Char) (ncs tcs : List Char)
    (hcur : ¬(st.current = ""))
    (hn : ∀ c ∈ (nc :: ncs), isIdentCont c = true)
    (htc : isIdentFirst tc = true)
    (htcs : ∀ c ∈ tcs, isIdentCont c = true) :
    viewTreeLineStep fp st
        ('\t' :: ((nc :: ncs) ++ ' ' :: '<' :: '=' :: ' ' :: tc :: tcs))
      = { st with pd := addComponentProp st.pd st.current (String.mk (tc :: tcs)) } := by
  have htgt : ∀ c ∈ (tc :: tcs), isIdentCont c = true := by
    intro c hc
    rcases List.mem_cons.mp hc with hh | hh
    · subst hh; exact identFirst_cont htc
    · exact htcs c hh
  have hTrim : goTrimSpace ('\t' :: ((nc :: ncs) ++ ' ' :: '<' :: '=' :: ' ' :: tc :: tcs))
      = (nc :: ncs) ++ ' ' :: '<' :: '=' :: ' ' :: tc :: tcs := by
    apply goTrimSpace_tab_cons
    · intro x hx
      have hxe : nc = x := by simpa using hx
      rw [← hxe]
      exact identCont_not_goSpace (hn nc (by simp))
    · intro x hx
      rw [getLast?_append_right _ _ (by simp)] at hx
      rw [show (' ' :: '<' :: '=' :: ' ' :: tc :: tcs : List Char)
          = [' ', '<', '=', ' '] ++ (tc :: tcs) from rfl] at hx
      rw [getLast?_append_right _ _ (by simp)] at hx
      exact identCont_not_goSpace (htgt x (getLast?_mem_own hx))
  have hassoc : ((nc :: ncs) ++ ' ' :: '<' :: '=' :: ' ' :: tc :: tcs : List Char)
      = ((nc :: ncs) ++ [' ']) ++ ('<' :: '=' :: ' ' :: tc :: tcs) := by simp
  have hContains : goContains ((nc :: ncs) ++ ' ' :: '<' :: '=' :: ' ' :: tc :: tcs)
      ['<', '='] = true := by
    rw [hassoc]
    exact goContains_of_suffix_prefixed _ _ _ (by simp [List.isPrefixOf])
  have hFind : findScanBinding ((nc :: ncs) ++ ' ' :: '<' :: '=' :: ' ' :: tc :: tcs)
      = some (tc :: tcs) := by
    rw [hassoc, findScanBinding_skip _ _ ?hpre]
    case hpre =>
      intro c hc
      rcases List.mem_append.mp hc with hh | hh
      · exact identCont_ne_lt (hn c hh)
      · have hce : c = ' ' := by simpa using hh
        rw [hce]
        decide
    rw [show findScanBinding ('<' :: '=' :: ' ' :: tc :: tcs)
        = (match scanBindingAt ('<' :: '=' :: ' ' :: tc :: tcs) with
           | some r => some r
           | none => findScanBinding ('=' :: ' ' :: tc :: tcs)) from rfl]
    rw [scanBindingAt_hit tc tcs htc htcs]
  unfold viewTreeLineStep
  dsimp only
  rw [hTrim]
  have hroot : ¬((!(['\t'].isPrefixOf ('\t' :: ((nc :: ncs) ++ ' ' :: '<' :: '=' :: ' ' :: tc :: tcs))) &&
      !([' '].isPrefixOf ('\t' :: ((nc :: ncs) ++ ' ' :: '<' :: '=' :: ' ' :: tc :: tcs))) &&
      ['$'].isPrefixOf ((nc :: ncs) ++ ' ' :: '<' :: '=' :: ' ' :: tc :: tcs)) = true) := by
    simp [List.isPrefixOf]
  rw [if_neg hroot]
  rw [if_neg hcur]
  have hmk : ¬(String.mk (tc :: tcs) = "") := by
    intro he
    have := congrArg String.data he
    simp at this
  have hdollar : ¬(['$'].isPrefixOf (tc :: tcs) = true) := by
    simp only [List.isPrefixOf, Bool.and_eq_true, beq_iff_eq]
    rintro ⟨he, -⟩
    exact identFirst_ne_dollar htc he.symm
  have hcont2 : ¬((!(goContains ((nc :: ncs) ++ ' ' :: '<' :: '=' :: ' ' :: tc :: tcs) ['<', '=']) &&
      !(goContains ((nc :: ncs) ++ ' ' :: '<' :: '=' :: ' ' :: tc :: tcs) ['<', '=', '>'])) = true) := by
    intro hx
    simp only [Bool.and_eq_true, Bool.not_eq_true'] at hx
    rw [hContains] at hx
    simp at hx
  cases hm : scannerIndentMatch ('\t' :: ((nc :: ncs) ++ ' ' :: '<' :: '=' :: ' ' :: tc :: tcs)) with
  | none =>
      rw [hFind]
      dsimp only
      rw [if_pos ⟨hmk, hdollar⟩]
  | some prop =>
      rw [hFind]
      dsimp only
      rw [if_pos ⟨hmk, hdollar⟩]
      rw [if_neg hcont2]

lemma viewTreeLineStep_sigil (st : ScanState) (fp : String) (rest : List Char)
    (hrest : ∀ c ∈ rest, isIdentCont c = true) :
    viewTreeLineStep fp st ('\t' :: '$' :: rest) = st := by
  have hTrim : goTrimSpace ('\t' :: '$' :: rest) = '$' :: rest := by
    apply goTrimSpace_tab_cons
    · intro x hx
      have hxe : '$' = x := by simpa using hx
      rw [← hxe]
      decide
    · intro x hx
      have hmem := getLast?_mem_own hx
      rcases List.mem_cons.mp hmem with hh | hh
      · subst hh; decide
      · exact identCont_not_goSpace (hrest x hh)
  have hFind : findScanBinding ('$' :: rest) = none := by
    have hskip := findScanBinding_skip ('$' :: rest) []
      (by
        intro c hc
        rcases List.mem_cons.mp hc with hh | hh
        · subst hh; decide
        · exact identCont_ne_lt (hrest c hh))
    simpa using hskip
  have hIndent : scannerIndentMatch ('\t' :: '$' :: rest) = none := by
    unfold scannerIndentMatch
    rw [List.takeWhile_cons, List.dropWhile_cons]
    simp [List.dropWhile_cons, isRegexSpace, isIdentFirst]
  unfold viewTreeLineStep
  dsimp only
  rw [hTrim]
  have hroot : ¬((!(['\t'].isPrefixOf ('\t' :: '$' :: rest)) &&
      !([' '].isPrefixOf ('\t' :: '$' :: rest)) &&
      ['$'].isPrefixOf ('$' :: rest)) = true) := by
    simp [List.isPrefixOf]
  rw [if_neg hroot]
  by_cases hcur : st.current = ""
  · rw [if_pos hcur]
  · rw [if_neg hcur]
    rw [hFind]
    dsimp only
    rw [hIndent]
lemma viewTreeLineStep_null (st : ScanState) (fp : String)
    (hcur : ¬(st.current = "")) :
    viewTreeLineStep fp st "\tnull".data = st := by
  unfold viewTreeLineStep
  dsimp only
  rw [if_neg (show ¬((!(['\t'].isPrefixOf (String.data "\tnull")) &&
      !([' '].isPrefixOf (String.data "\tnull")) &&
      ['$'].isPrefixOf (goTrimSpace (String.data "\tnull"))) = true) from by decide)]
  rw [if_neg hcur]
  rw [show findScanBinding (goTrimSpace (String.data "\tnull")) = none from by decide]
  dsimp only
  rw [show scannerIndentMatch (String.data "\tnull") = some ['n', 'u', 'l', 'l'] from by decide]
  dsimp only
  rw [if_pos (show (!(goContains (goTrimSpace (String.data "\tnull")) ['<', '=']) &&
      !(goContains (goTrimSpace (String.data "\tnull")) ['<', '=', '>'])) = true from by decide)]
  rw [if_neg (show ¬(¬(String.mk ['n', 'u', 'l', 'l'] = "") ∧
      ¬(['$'].isPrefixOf ['n', 'u', 'l', 'l'] = true) ∧
      ¬(String.mk ['n', 'u', 'l', 'l'] = "null") ∧
      ¬(String.mk ['n', 'u', 'l', 'l'] = "true") ∧
      ¬(String.mk ['n', 'u', 'l', 'l'] = "false")) from by decide)]

lemma viewTreeLineStep_true (st : ScanState) (fp : String)
    (hcur : ¬(st.current = "")) :
    viewTreeLineStep fp st "\ttrue".data = st := by
  unfold viewTreeLineStep
  dsimp only
  rw [if_neg (show ¬((!(['\t'].isPrefixOf (String.data "\ttrue")) &&
      !([' '].isPrefixOf (String.data "\ttrue")) &&
      ['$'].isPrefixOf (goTrimSpace (String.data "\ttrue"))) = true) from by decide)]
  rw [if_neg hcur]
  rw [show findScanBinding (goTrimSpace (String.data "\ttrue")) = none from by decide]
  dsimp only
  rw [show scannerIndentMatch (String.data "\ttrue") = some ['t', 'r', 'u', 'e'] from by decide]
  dsimp only
  rw [if_pos (show (!(goContains (goTrimSpace (String.data "\ttrue")) ['<', '=']) &&
      !(goContains (goTrimSpace (String.data "\ttrue")) ['<', '=', '>'])) = true from by decide)]
  rw [if_neg (show ¬(¬(String.mk ['t', 'r', 'u', 'e'] = "") ∧
      ¬(['$'].isPrefixOf ['t', 'r', 'u', 'e'] = true) ∧
      ¬(String.mk ['t', 'r', 'u', 'e'] = "null") ∧
      ¬(String.mk ['t', 'r', 'u', 'e'] = "true") ∧
      ¬(String.mk ['t', 'r', 'u', 'e'] = "false")) from by decide)]

lemma viewTreeLineStep_false (st : ScanState) (fp : String)
    (hcur : ¬(st.current = "")) :
    viewTreeLineStep fp st "\tfalse".data = st := by
  unfold viewTreeLineStep
  dsimp only
  rw [if_neg (show ¬((!(['\t'].isPrefixOf (String.data "\tfalse")) &&
      !([' '].isPrefixOf (String.data "\tfalse")) &&
      ['$'].isPrefixOf (goTrimSpace (String.data "\tfalse"))) = true) from by decide)]
  rw [if_neg hcur]
  rw [show findScanBinding (goTrimSpace (String.data "\tfalse")) = none from by decide]
  dsimp only
  rw [show scannerIndentMatch (String.data "\tfalse") = some ['f', 'a', 'l', 's', 'e'] from by decide]
  dsimp only
  rw [if_pos (show (!(goContains (goTrimSpace (String.data "\tfalse")) ['<', '=']) &&
      !(goContains (goTrimSpace (String.data "\tfalse")) ['<', '=', '>'])) = true from by decide)]
  rw [if_neg (show ¬(¬(String.mk ['f', 'a', 'l', 's', 'e'] = "") ∧
      ¬(['$'].isPrefixOf ['f', 'a', 'l', 's', 'e'] = true) ∧
      ¬(String.mk ['f', 'a', 'l', 's', 'e'] = "null") ∧
      ¬(String.mk ['f', 'a', 'l', 's', 'e'] = "true") ∧
      ¬(String.mk ['f', 'a', 'l', 's', 'e'] = "false")) from by decide)]

/-- C10: on an indented binding line `"\tname <= target"` the workspace
scanner adds exactly the right-hand bound name `target` to the current
component's property set (the left-hand `name` is not added, because the
indented-property extraction skips every line whose trimmed text contains
`<=`); lines carrying only a sigil-prefixed token, or the keywords `null`,
`true`, `false`, add nothing.  The closing conjunct runs the whole pipeline
on a file exercising all those cases: only `plain` (a plain property line)
and `target` (the bound name) end up in `GetPropertiesForComponent`. -/
theorem c10_scanner_binding_extraction :
    (∀ (st : ScanState) (fp : String) (nc tc : Char) (ncs tcs : List Char),
      ¬(st.current = "") →
      (∀ c ∈ (nc :: ncs), isIdentCont c = true) →
      isIdentFirst tc = true →
      (∀ c ∈ tcs, isIdentCont c = true) →
      viewTreeLineStep fp st ('\t' :: ((nc :: ncs) ++ ' ' :: '<' :: '=' :: ' ' :: tc :: tcs))
        = { st with pd := addComponentProp st.pd st.current (String.mk (tc :: tcs)) }) ∧
    (∀ (st : ScanState) (fp : String) (rest : List Char),
      (∀ c ∈ rest, isIdentCont c = true) →
      viewTreeLineStep fp st ('\t' :: '$' :: rest) = st) ∧
    (∀ (st : ScanState) (fp : String), ¬(st.current = "") →
      viewTreeLineStep fp st "\tnull".data = st ∧
      viewTreeLineStep fp st "\ttrue".data = st ∧
      viewTreeLineStep fp st "\tfalse".data = st) ∧
    getPropertiesForComponent
      (parseViewTreeFile "$c\n\tname <= target\n\tplain val\n\t$sub\n\tnull\n\ttrue\n\tfalse\n"
        "g.view.tree" newProjectData) "$c" = ["plain", "target"] := by
  refine ⟨?_, ?_, ?_, by decide⟩
  · intro st fp nc tc ncs tcs hcur hn htc htcs
    exact viewTreeLineStep_binding st fp nc tc ncs tcs hcur hn htc htcs
  · intro st fp rest hrest
    exact viewTreeLineStep_sigil st fp rest hrest
  · intro st fp hcur
    exact ⟨viewTreeLineStep_null st fp hcur, viewTreeLineStep_true st fp hcur,
      viewTreeLineStep_false st fp hcur⟩
